import Mathlib

/-!
Shallow embedding of the metric-aggregation and rate-distortion comparison
code of the psy-ex/metrics repository (src/metrics.py, src/scripts/metrics.py,
src/scripts/plot.py).  Python floats are modelled as real numbers; a raised
Python exception is modelled as an `Except.error` value.
-/

open Classical

noncomputable section

/-- Python exceptions relevant to the embedded code.  `emptySeriesError` is
the error named by the spec's error taxonomy; the code never raises it. -/
inductive PyErr where
  | zeroDivisionError
  | emptySeriesError
  | statisticsError
  deriving DecidableEq

/-- List element access with default `0`; the embedded code only uses it with
in-range indices. -/
def nth (l : List ℝ) (i : ℕ) : ℝ := l.getD i 0

/-- Stable insertion into an ascending list of reals. -/
def insertAsc (x : ℝ) : List ℝ → List ℝ
  | [] => [x]
  | y :: ys => if x ≤ y then x :: y :: ys else y :: insertAsc x ys

/-- Ascending stable sort of a list of reals: models Python `sorted(...)`. -/
def sortAsc : List ℝ → List ℝ
  | [] => []
  | x :: xs => insertAsc x (sortAsc xs)

/-- Embeds `[score for score in score_list if score > 0.0]`. -/
def filterPos : List ℝ → List ℝ
  | [] => []
  | x :: xs => if x > 0 then x :: filterPos xs else filterPos xs

/-- Embeds `[score for score in score_list if score <= 0.0]`. -/
def filterNonpos : List ℝ → List ℝ
  | [] => []
  | x :: xs => if x ≤ 0 then x :: filterNonpos xs else filterNonpos xs

/-- Embeds `calc_some_scores` (src/metrics.py:255-275).  `x ** 0.5` on the
nonnegative variance is `Real.sqrt`; `int(len(score_list) * 0.1)` is
`⌊n * (1/10)⌋` (for every list length `n` the float product `n * 0.1` rounds
to a value with that same integer part).  A Python `ZeroDivisionError` is
modelled as an error value: it is raised on an empty list (`sum/len` is
`0/0`), by `1 / score` when the non-positive partition contains a zero, and
by the final division when `sum_reciprocals` is zero. -/
def calc_some_scores (score_list : List ℝ) : Except PyErr (ℝ × ℝ × ℝ × ℝ) :=
  if score_list = [] then .error .zeroDivisionError
  else
    let average : ℝ := score_list.sum / score_list.length
    let positive_scores := filterPos score_list
    let negative_scores := filterNonpos score_list
    let std_dev : ℝ :=
      Real.sqrt ((score_list.map (fun x => (x - average) ^ 2)).sum / score_list.length)
    let percentile_10th : ℝ := nth (sortAsc score_list) ⌊(score_list.length : ℝ) * 0.1⌋₊
    if positive_scores = [] then
      .ok (average, 0, std_dev, percentile_10th)
    else if (0 : ℝ) ∈ negative_scores then .error .zeroDivisionError
    else
      let sum_reciprocals : ℝ :=
        (positive_scores.map (fun score => 1 / score)).sum
          - (negative_scores.map (fun score => 1 / score)).sum
      if sum_reciprocals = 0 then .error .zeroDivisionError
      else .ok (average, positive_scores.length / sum_reciprocals, std_dev, percentile_10th)

/-- Follows the spec's words (§4.1 `harmonic_mean`): partition into positive
and non-positive samples, sum reciprocals of the positive subset, subtract
the sum of reciprocals of the non-positive subset, and divide the count of
positive samples by this combined sum; `0` when no sample is positive.
Stated for comparison with the value computed by `calc_some_scores`. -/
def harmonic_mean_spec (l : List ℝ) : ℝ :=
  if filterPos l = [] then 0
  else (filterPos l).length /
    (((filterPos l).map (fun x => 1 / x)).sum - ((filterNonpos l).map (fun x => 1 / x)).sum)

/-- Embeds `statistics.mean` of a non-empty list. -/
def statistics_mean (l : List ℝ) : ℝ := l.sum / l.length

/-- Embeds `statistics.stdev`: the sample standard deviation, divisor `n - 1`. -/
def statistics_stdev (l : List ℝ) : ℝ :=
  Real.sqrt ((l.map (fun x => (x - statistics_mean l) ^ 2)).sum / ((l.length : ℝ) - 1))

/-- Embeds element `i` (0-based) of `statistics.quantiles(l, n=100)` (CPython,
default `exclusive` method): `j, delta = divmod((i+1) * (len+1), 100)`, `j`
clamped to `[1, len-1]`, then linear interpolation between the two adjacent
elements of the sorted data. -/
def statistics_quantiles100 (l : List ℝ) (i : ℕ) : ℝ :=
  let data := sortAsc l
  let ld := l.length
  let m := ld + 1
  let j := max 1 (min (((i + 1) * m) / 100) (ld - 1))
  let delta := ((i + 1) * m) % 100
  (nth data (j - 1) * (100 - (delta : ℝ)) + nth data j * (delta : ℝ)) / 100

/-- Embeds `calc_some_scores` from src/scripts/metrics.py:501-508, built on
`statistics.mean`, `statistics.stdev` and `statistics.quantiles(..., n=100)[10]`.
`statistics.mean` raises `StatisticsError` on an empty list, and
`statistics.stdev` and `statistics.quantiles` raise it on fewer than two
samples. -/
def scripts_calc_some_scores (score_list : List ℝ) : Except PyErr (ℝ × ℝ × ℝ) :=
  if score_list.length < 2 then .error .statisticsError
  else .ok (statistics_mean score_list, statistics_stdev score_list,
    statistics_quantiles100 score_list 10)

/-- Embeds `butter_to_vbutter` (src/metrics.py:238-245); `math.log10` is
`Real.logb 10`. -/
def butter_to_vbutter (d : ℝ) : ℝ :=
  (if d ≠ 0 then Real.logb 10 ((2 / (|d| + 2)) * 200) - 1.30103 else 1) * 100

/-- Embeds `psnr_to_mse` (src/metrics.py:248-252); `10 ** (p / 10)` on floats
is the real power `(10:ℝ) ^ (p / 10)`. -/
def psnr_to_mse (p : ℝ) (m : ℕ) : ℝ := (m : ℝ) ^ 2 / (10 : ℝ) ^ (p / 10)

/-- Embeds the weighted XPSNR computation of `DstVideo.calculate_xpsnr`
(src/metrics.py:217-222): each plane's PSNR to MSE, 4:2:0 luma weighting,
back to dB via `math.log10`. -/
def weighted_xpsnr (psnr_y psnr_u psnr_v : ℝ) : ℝ :=
  let maxval : ℕ := 255
  let xpsnr_mse_y := psnr_to_mse psnr_y maxval
  let xpsnr_mse_u := psnr_to_mse psnr_u maxval
  let xpsnr_mse_v := psnr_to_mse psnr_v maxval
  let w_xpsnr_mse := (4.0 * xpsnr_mse_y + xpsnr_mse_u + xpsnr_mse_v) / 6.0
  10.0 * Real.logb 10 ((maxval : ℝ) ^ 2 / w_xpsnr_mse)

lemma mem_filterPos {x : ℝ} : ∀ {l : List ℝ}, x ∈ filterPos l ↔ x ∈ l ∧ x > 0
  | [] => by simp [filterPos]
  | y :: ys => by
    by_cases hy : y > 0
    · simp only [filterPos, if_pos hy, List.mem_cons, mem_filterPos (l := ys)]
      constructor
      · rintro (rfl | ⟨h1, h2⟩)
        · exact ⟨Or.inl rfl, hy⟩
        · exact ⟨Or.inr h1, h2⟩
      · rintro ⟨rfl | h1, h2⟩
        · exact Or.inl rfl
        · exact Or.inr ⟨h1, h2⟩
    · simp only [filterPos, if_neg hy, List.mem_cons, mem_filterPos (l := ys)]
      constructor
      · rintro ⟨h1, h2⟩; exact ⟨Or.inr h1, h2⟩
      · rintro ⟨rfl | h1, h2⟩
        · exact absurd h2 hy
        · exact ⟨h1, h2⟩

lemma mem_filterNonpos {x : ℝ} : ∀ {l : List ℝ}, x ∈ filterNonpos l ↔ x ∈ l ∧ x ≤ 0
  | [] => by simp [filterNonpos]
  | y :: ys => by
    by_cases hy : y ≤ 0
    · simp only [filterNonpos, if_pos hy, List.mem_cons, mem_filterNonpos (l := ys)]
      constructor
      · rintro (rfl | ⟨h1, h2⟩)
        · exact ⟨Or.inl rfl, hy⟩
        · exact ⟨Or.inr h1, h2⟩
      · rintro ⟨rfl | h1, h2⟩
        · exact Or.inl rfl
        · exact Or.inr ⟨h1, h2⟩
    · simp only [filterNonpos, if_neg hy, List.mem_cons, mem_filterNonpos (l := ys)]
      constructor
      · rintro ⟨h1, h2⟩; exact ⟨Or.inr h1, h2⟩
      · rintro ⟨rfl | h1, h2⟩
        · exact absurd h2 hy
        · exact ⟨h1, h2⟩

lemma list_sum_nonpos : ∀ {l : List ℝ}, (∀ x ∈ l, x ≤ 0) → l.sum ≤ 0
  | [] => by simp
  | x :: xs => fun h => by
    simp only [List.sum_cons]
    have hx := h x (List.mem_cons_self x xs)
    have hxs := list_sum_nonpos (fun y hy => h y (List.mem_cons_of_mem x hy))
    linarith

lemma filterPos_ne_nil {l : List ℝ} (h : ∃ x ∈ l, 0 < x) : filterPos l ≠ [] := by
  obtain ⟨x, hx, hx0⟩ := h
  intro hnil
  have : x ∈ filterPos l := mem_filterPos.mpr ⟨hx, hx0⟩
  rw [hnil] at this
  exact List.not_mem_nil x this

lemma exists_pos_of_filterPos_ne_nil {l : List ℝ} (h : filterPos l ≠ []) :
    ∃ x ∈ l, 0 < x := by
  obtain ⟨y, ys, hys⟩ := List.exists_cons_of_ne_nil h
  have : y ∈ filterPos l := by rw [hys]; exact List.mem_cons_self y ys
  obtain ⟨h1, h2⟩ := mem_filterPos.mp this
  exact ⟨y, h1, h2⟩

/-- When `calc_some_scores` succeeds, its components are the arithmetic mean,
the signed-reciprocal harmonic mean, the population standard deviation and
the nearest-rank 10th percentile from the source. -/
lemma calc_some_scores_ok {l : List ℝ} (h1 : l ≠ [])
    (h2 : (∃ x ∈ l, 0 < x) → (0 : ℝ) ∉ l) :
    calc_some_scores l = .ok (l.sum / l.length, harmonic_mean_spec l,
      Real.sqrt ((l.map (fun x => (x - l.sum / l.length) ^ 2)).sum / l.length),
      nth (sortAsc l) ⌊(l.length : ℝ) * 0.1⌋₊) := by
  rw [calc_some_scores, if_neg h1]
  by_cases hpos : filterPos l = []
  · rw [if_pos hpos, harmonic_mean_spec, if_pos hpos]
  · have h0 : (0 : ℝ) ∉ l := h2 (exists_pos_of_filterPos_ne_nil hpos)
    have h0n : (0 : ℝ) ∉ filterNonpos l := fun hmem => h0 (mem_filterNonpos.mp hmem).1
    have hsumpos : 0 < ((filterPos l).map (fun score => 1 / score)).sum := by
      apply List.sum_pos
      · intro y hy
        obtain ⟨x, hx, rfl⟩ := List.mem_map.mp hy
        have := (mem_filterPos.mp hx).2
        positivity
      · simp only [ne_eq, List.map_eq_nil_iff]
        exact hpos
    have hsumneg : ((filterNonpos l).map (fun score => 1 / score)).sum ≤ 0 := by
      apply list_sum_nonpos
      intro y hy
      obtain ⟨x, hx, rfl⟩ := List.mem_map.mp hy
      obtain ⟨hxl, hxle⟩ := mem_filterNonpos.mp hx
      have hxlt : x < 0 := lt_of_le_of_ne hxle (fun hx0 => h0 (hx0 ▸ hxl))
      have : 1 / x < 0 := by
        apply div_neg_of_pos_of_neg one_pos hxlt
      exact le_of_lt this
    have hsum : ((filterPos l).map (fun score => 1 / score)).sum
        - ((filterNonpos l).map (fun score => 1 / score)).sum ≠ 0 := by
      have : 0 < ((filterPos l).map (fun score => 1 / score)).sum
          - ((filterNonpos l).map (fun score => 1 / score)).sum := by linarith
      exact ne_of_gt this
    rw [if_neg hpos, if_neg h0n, if_neg hsum, harmonic_mean_spec, if_neg hpos]

/-- Concrete evaluation of the aggregation on the spec's example series. -/
lemma calc_eval_12345 :
    calc_some_scores [1, 2, 3, 4, 5] = .ok (3, 300 / 137, Real.sqrt 2, 1) := by
  have h := calc_some_scores_ok (l := [1, 2, 3, 4, 5]) (by simp) (by intro _; norm_num)
  rw [h]
  norm_num [harmonic_mean_spec, filterPos, filterNonpos, sortAsc, insertAsc, nth]
  rw [show ⌊(1 : ℝ) / 2⌋₊ = 0 from Nat.floor_eq_zero.mpr (by norm_num)]
  simp

/-- Concrete evaluation of the scripts-variant aggregation on the same series. -/
lemma scripts_eval_12345 :
    scripts_calc_some_scores [1, 2, 3, 4, 5] = .ok (3, Real.sqrt (5 / 2), 1.66) := by
  rw [scripts_calc_some_scores, if_neg (by norm_num)]
  norm_num [statistics_mean, statistics_stdev, statistics_quantiles100, sortAsc,
    insertAsc, nth]

/-- C2.  For every non-empty series on which aggregation returns (no positive
sample coexisting with an exact zero), the harmonic mean component equals the
spec's signed-reciprocal formula: positive-count divided by (sum of positive
reciprocals minus sum of non-positive reciprocals), and `0` when no sample is
positive. -/
theorem c2_harmonic_mean_signed_reciprocals :
    ∀ l : List ℝ, l ≠ [] → ((∃ x ∈ l, 0 < x) → (0 : ℝ) ∉ l) →
      ∃ avg sd p10, calc_some_scores l = .ok (avg, harmonic_mean_spec l, sd, p10) :=
  fun _ h1 h2 => ⟨_, _, _, calc_some_scores_ok h1 h2⟩

/-- Witness for C2 at the concrete series `[1, 2, -1]`. -/
theorem c2_harmonic_mean_signed_reciprocals_witness :
    ∃ avg sd p10, calc_some_scores [1, 2, -1] =
      .ok (avg, harmonic_mean_spec [1, 2, -1], sd, p10) :=
  c2_harmonic_mean_signed_reciprocals [1, 2, -1] (by simp) (by intro _; norm_num)

/-- C5 counterexample.  Aggregation of the empty series does not fail with
the spec's `EmptySeriesError`: the code raises the builtin division-by-zero
error instead. -/
theorem c5_counterexample :
    calc_some_scores [] ≠ .error .emptySeriesError := by
  rw [calc_some_scores, if_pos rfl]
  intro h
  exact PyErr.noConfusion (Except.error.inj h)

/-- C5 (amended).  Aggregation applied to an empty sample list fails fast with
`ZeroDivisionError` (raised by the `sum/len` average), rather than returning a
default value. -/
theorem c5_empty_series_fails :
    calc_some_scores [] = .error .zeroDivisionError := by
  rw [calc_some_scores, if_pos rfl]

/-- C10.  Every sample list containing a positive sample and an exact zero
makes the aggregation raise `ZeroDivisionError` while building the signed
reciprocals: zero is placed in the non-positive partition and `1 / 0.0` is
evaluated. -/
theorem c10_zero_sample_division_error :
    ∀ l : List ℝ, (∃ x ∈ l, 0 < x) → (0 : ℝ) ∈ l →
      calc_some_scores l = .error .zeroDivisionError := by
  intro l hpos h0
  have h1 : l ≠ [] := by
    intro hnil
    rw [hnil] at h0
    exact List.not_mem_nil 0 h0
  rw [calc_some_scores, if_neg h1, if_neg (filterPos_ne_nil hpos),
    if_pos (mem_filterNonpos.mpr ⟨h0, le_refl 0⟩)]

/-- Witness for C10 at the concrete series `[1, 0]`. -/
theorem c10_zero_sample_division_error_witness :
    calc_some_scores [1, 0] = .error .zeroDivisionError :=
  c10_zero_sample_division_error [1, 0] ⟨1, by simp, by norm_num⟩ (by simp)

/-- C3 counterexample.  The aggregation variant in src/scripts/metrics.py
(`statistics.stdev`) returns the sample standard deviation: on `[1,2,3,4,5]`
it yields `√(5/2) ≈ 1.5811`, not approximately `1.4142`. -/
theorem c3_counterexample :
    (∃ avg p10, scripts_calc_some_scores [1, 2, 3, 4, 5] = .ok (avg, Real.sqrt (5 / 2), p10))
    ∧ ¬ |Real.sqrt (5 / 2) - 1.4142| ≤ 0.1 := by
  constructor
  · exact ⟨3, 1.66, scripts_eval_12345⟩
  · have h : (1.5142 : ℝ) < Real.sqrt (5 / 2) :=
      (Real.lt_sqrt (by norm_num)).mpr (by norm_num)
    have habs : Real.sqrt (5 / 2) - 1.4142 ≤ |Real.sqrt (5 / 2) - 1.4142| := le_abs_self _
    intro hle
    linarith

/-- C3 (amended).  The aggregation in src/metrics.py returns the population
standard deviation `sqrt(mean((x-avg)^2))` (divisor `N`), which on
`[1,2,3,4,5]` is `√2 ≈ 1.4142`; the aggregation variant in
src/scripts/metrics.py instead returns the sample standard deviation
(divisor `N-1`, `√(5/2)` on the same series). -/
theorem c3_std_dev_population :
    (∀ l : List ℝ, l ≠ [] → ((∃ x ∈ l, 0 < x) → (0 : ℝ) ∉ l) →
      ∃ avg hm p10, calc_some_scores l = .ok (avg, hm,
        Real.sqrt ((l.map (fun x => (x - l.sum / l.length) ^ 2)).sum / l.length), p10))
    ∧ (∃ avg hm p10, calc_some_scores [1, 2, 3, 4, 5] = .ok (avg, hm, Real.sqrt 2, p10)
        ∧ |Real.sqrt 2 - 1.4142| < 0.001)
    ∧ (∃ avg p10, scripts_calc_some_scores [1, 2, 3, 4, 5] = .ok (avg, Real.sqrt (5 / 2), p10)) := by
  refine ⟨fun l h1 h2 => ⟨_, _, _, calc_some_scores_ok h1 h2⟩, ⟨3, 300 / 137, 1, calc_eval_12345, ?_⟩, ⟨3, 1.66, scripts_eval_12345⟩⟩
  have hlo : (1.4142 : ℝ) < Real.sqrt 2 := (Real.lt_sqrt (by norm_num)).mpr (by norm_num)
  have hhi : Real.sqrt 2 < (1.4152 : ℝ) := (Real.sqrt_lt' (by norm_num)).mpr (by norm_num)
  rw [abs_sub_lt_iff]
  constructor <;> linarith

/-- Witness for C3 at the concrete one-element series `[2]`. -/
theorem c3_std_dev_population_witness :
    ∃ avg hm p10, calc_some_scores [2] = .ok (avg, hm,
      Real.sqrt ((([2] : List ℝ).map
        (fun x => (x - ([2] : List ℝ).sum / ([2] : List ℝ).length) ^ 2)).sum /
        ([2] : List ℝ).length), p10) :=
  c3_std_dev_population.1 [2] (by simp) (by intro _; norm_num)

lemma floor_mul_tenth (n : ℕ) : ⌊(n : ℝ) * 0.1⌋₊ = n / 10 := by
  rw [show ((n : ℝ) * 0.1) = (n : ℝ) / ((10 : ℕ) : ℝ) by push_cast; ring,
    Nat.floor_div_nat, Nat.floor_natCast]

/-- C4 counterexample.  The aggregation variant in src/scripts/metrics.py
returns `statistics.quantiles(..., n=100)[10]`, an interpolated quantile: on
`[1,2,3,4,5]` it yields `1.66`, while the nearest-rank element at index
`floor(N * 0.1)` of the sorted series is `1`. -/
theorem c4_counterexample :
    (∃ avg sd, scripts_calc_some_scores [1, 2, 3, 4, 5] = .ok (avg, sd, 1.66))
    ∧ (1.66 : ℝ) ≠
      nth (sortAsc [1, 2, 3, 4, 5]) ⌊(([1, 2, 3, 4, 5] : List ℝ).length : ℝ) * 0.1⌋₊ := by
  refine ⟨⟨3, Real.sqrt (5 / 2), scripts_eval_12345⟩, ?_⟩
  rw [show (([1, 2, 3, 4, 5] : List ℝ).length : ℝ) = ((5 : ℕ) : ℝ) by norm_num,
    floor_mul_tenth]
  norm_num [sortAsc, insertAsc, nth]

/-- C4 (amended).  The aggregation in src/metrics.py returns the element at
0-based index `floor(N * 0.1)` (equal to `N / 10` as integers) of the series
sorted ascending — nearest rank, no interpolation; on `[1,2,3,4,5]` this is
the element at index 0, that is `1`.  The variant in src/scripts/metrics.py
instead returns the interpolated `statistics.quantiles(n=100)[10]` cut point
(`1.66` on the same series). -/
theorem c4_p10_nearest_rank :
    (∀ l : List ℝ, l ≠ [] → ((∃ x ∈ l, 0 < x) → (0 : ℝ) ∉ l) →
      ∃ avg hm sd, calc_some_scores l = .ok (avg, hm, sd, nth (sortAsc l) (l.length / 10)))
    ∧ (∃ avg hm sd, calc_some_scores [1, 2, 3, 4, 5] = .ok (avg, hm, sd, 1))
    ∧ (∃ avg sd, scripts_calc_some_scores [1, 2, 3, 4, 5] = .ok (avg, sd, 1.66)) := by
  refine ⟨fun l h1 h2 => ?_, ⟨3, 300 / 137, Real.sqrt 2, calc_eval_12345⟩,
    ⟨3, Real.sqrt (5 / 2), scripts_eval_12345⟩⟩
  have h := calc_some_scores_ok h1 h2
  rw [floor_mul_tenth] at h
  exact ⟨_, _, _, h⟩

/-- Witness for C4 at the concrete unsorted series `[3, 1, 2]`. -/
theorem c4_p10_nearest_rank_witness :
    ∃ avg hm sd, calc_some_scores [3, 1, 2] =
      .ok (avg, hm, sd, nth (sortAsc [3, 1, 2]) (([3, 1, 2] : List ℝ).length / 10)) :=
  c4_p10_nearest_rank.1 [3, 1, 2] (by simp) (by intro _; norm_num)

/-- C6.  The Butteraugli-to-perceptual transform returns exactly `100` at
distance `0`, is strictly decreasing on positive distances, and on nonzero
distance equals `(log10((2 / (|d| + 2)) * 200) - 1.30103) * 100`. -/
theorem c6_butter_transform :
    butter_to_vbutter 0 = 100
    ∧ (∀ d1 d2 : ℝ, 0 < d1 → d1 < d2 → butter_to_vbutter d2 < butter_to_vbutter d1)
    ∧ (∀ d : ℝ, d ≠ 0 →
        butter_to_vbutter d = (Real.logb 10 ((2 / (|d| + 2)) * 200) - 1.30103) * 100) := by
  refine ⟨by simp [butter_to_vbutter], fun d1 d2 h1 h12 => ?_, fun d hd => by
    rw [butter_to_vbutter, if_pos hd]⟩
  have hd2 : 0 < d2 := h1.trans h12
  simp only [butter_to_vbutter]
  rw [if_pos (ne_of_gt hd2), if_pos (ne_of_gt h1), abs_of_pos h1, abs_of_pos hd2]
  have harg : (2 / (d2 + 2)) * 200 < (2 / (d1 + 2)) * 200 := by
    have : (2 : ℝ) / (d2 + 2) < 2 / (d1 + 2) :=
      div_lt_div_of_pos_left (by norm_num) (by linarith) (by linarith)
    linarith
  have hpos : (0 : ℝ) < (2 / (d2 + 2)) * 200 := by positivity
  have := Real.logb_lt_logb (b := 10) (by norm_num) hpos harg
  nlinarith [this]

/-- Witness for C6: strict decrease at the concrete pair `1 < 2`. -/
theorem c6_butter_transform_witness :
    butter_to_vbutter 2 < butter_to_vbutter 1 :=
  c6_butter_transform.2.1 1 2 (by norm_num) (by norm_num)

/-- C7.  The weighted-XPSNR composite of three equal plane PSNRs is that same
PSNR (the chroma weighting collapses to the common MSE), and
`psnr_to_mse 20 255 = 650.25` exactly in real arithmetic. -/
theorem c7_weighted_xpsnr_round_trip :
    (∀ p : ℝ, weighted_xpsnr p p p = p) ∧ psnr_to_mse 20 255 = 650.25 := by
  constructor
  · intro p
    have hR : (0 : ℝ) < (10 : ℝ) ^ (p / 10) := Real.rpow_pos_of_pos (by norm_num) _
    have h255 : ((255 : ℕ) : ℝ) = (255 : ℝ) := by norm_num
    simp only [weighted_xpsnr, psnr_to_mse, h255]
    rw [show (4.0 * ((255 : ℝ) ^ 2 / (10 : ℝ) ^ (p / 10)) + (255 : ℝ) ^ 2 / (10 : ℝ) ^ (p / 10)
        + (255 : ℝ) ^ 2 / (10 : ℝ) ^ (p / 10)) / 6.0 = (255 : ℝ) ^ 2 / (10 : ℝ) ^ (p / 10) from by
      norm_num; ring]
    rw [show (255 : ℝ) ^ 2 / ((255 : ℝ) ^ 2 / (10 : ℝ) ^ (p / 10)) = (10 : ℝ) ^ (p / 10) from by
      field_simp]
    rw [Real.logb_rpow (by norm_num) (by norm_num)]
    norm_num
    ring
  · rw [psnr_to_mse, show ((20 : ℝ) / 10) = ((2 : ℕ) : ℝ) by norm_num, Real.rpow_natCast]
    norm_num

/-- Stable insertion of a `(rate, metric)` pair into a list ascending in the
metric (second) component. -/
def insertByMetric (p : ℝ × ℝ) : List (ℝ × ℝ) → List (ℝ × ℝ)
  | [] => [p]
  | q :: qs => if p.2 ≤ q.2 then p :: q :: qs else q :: insertByMetric p qs

/-- Stable ascending sort by the metric component: models the in-place
`metric_set.sort(key=lambda tup: tup[1])` of src/scripts/plot.py:196-197. -/
def sortByMetric : List (ℝ × ℝ) → List (ℝ × ℝ)
  | [] => []
  | p :: ps => insertByMetric p (sortByMetric ps)

/-- The metric components of a point list.  The source also clamps metric
values equal to `float('inf')` to `100.0`; real numbers have no infinity, so
the clamp has no counterpart in this model. -/
def metricVals (l : List (ℝ × ℝ)) : List ℝ := l.map (fun p => p.2)

/-- Embeds `[math.log(x[0]) for x in metric_set]`. -/
def logRates (l : List (ℝ × ℝ)) : List ℝ := l.map (fun p => Real.log p.1)

/-- Embeds Python `min(...)` of a non-empty list of floats (`0` on `[]`,
which the embedded code never evaluates). -/
def listMin : List ℝ → ℝ
  | [] => 0
  | x :: xs => xs.foldl min x

/-- Embeds Python `max(...)` of a non-empty list of floats. -/
def listMax : List ℝ → ℝ
  | [] => 0
  | x :: xs => xs.foldl max x

/-- Secant slope `mk[i]` of scipy's PCHIP derivative computation: the data
is given as breakpoint and value functions on `ℕ`. -/
def mk (x y : ℕ → ℝ) (i : ℕ) : ℝ := (y (i + 1) - y i) / (x (i + 1) - x i)

/-- Embeds scipy `PchipInterpolator._edge_case`: one-sided three-point
derivative estimate at a curve end, clipped to preserve shape. -/
def edge_case (h0 h1 m0 m1 : ℝ) : ℝ :=
  if Real.sign (((2 * h0 + h1) * m0 - h0 * m1) / (h0 + h1)) ≠ Real.sign m0 then 0
  else if Real.sign m0 ≠ Real.sign m1
      ∧ |((2 * h0 + h1) * m0 - h0 * m1) / (h0 + h1)| > 3 * |m0| then 3 * m0
  else ((2 * h0 + h1) * m0 - h0 * m1) / (h0 + h1)

/-- Embeds scipy `PchipInterpolator._find_derivatives` for `n` data points:
two points give the (linear) secant slope; ends use `edge_case`; interior
points use the weighted harmonic mean of adjacent secant slopes, zero when
they vanish or differ in sign. -/
def pchipSlope (n : ℕ) (x y : ℕ → ℝ) (j : ℕ) : ℝ :=
  if n = 2 then mk x y 0
  else if j = 0 then
    edge_case (x 1 - x 0) (x 2 - x 1) (mk x y 0) (mk x y 1)
  else if j = n - 1 then
    edge_case (x (n - 1) - x (n - 2)) (x (n - 2) - x (n - 3))
      (mk x y (n - 2)) (mk x y (n - 3))
  else if Real.sign (mk x y j) ≠ Real.sign (mk x y (j - 1))
      ∨ mk x y j = 0 ∨ mk x y (j - 1) = 0 then 0
  else
    ((2 * (x (j + 1) - x j) + (x j - x (j - 1)))
        + ((x (j + 1) - x j) + 2 * (x j - x (j - 1)))) /
      ((2 * (x (j + 1) - x j) + (x j - x (j - 1))) / mk x y (j - 1)
        + ((x (j + 1) - x j) + 2 * (x j - x (j - 1))) / mk x y j)

/-- Index of the cubic piece evaluated at `t`: for breakpoints ascending in
`x 0, …, x (n-1)` this is scipy's interval search, clamped to `[0, n-2]` (out
of range evaluates the edge polynomial). -/
def intervalIdx (n : ℕ) (x : ℕ → ℝ) (t : ℝ) : ℕ :=
  min ((Finset.Ico 1 n).filter (fun i => x i ≤ t)).card (n - 2)

/-- Cubic Hermite basis evaluation on one interval `[x0, x1]` with endpoint
values `y0, y1` and endpoint derivatives `d0, d1`. -/
def hermite (x0 x1 y0 y1 d0 d1 t : ℝ) : ℝ :=
  y0 * (2 * ((t - x0) / (x1 - x0)) ^ 3 - 3 * ((t - x0) / (x1 - x0)) ^ 2 + 1)
    + (x1 - x0) * d0 * (((t - x0) / (x1 - x0)) ^ 3 - 2 * ((t - x0) / (x1 - x0)) ^ 2
        + (t - x0) / (x1 - x0))
    + y1 * (-2 * ((t - x0) / (x1 - x0)) ^ 3 + 3 * ((t - x0) / (x1 - x0)) ^ 2)
    + (x1 - x0) * d1 * (((t - x0) / (x1 - x0)) ^ 3 - ((t - x0) / (x1 - x0)) ^ 2)

/-- Embeds `scipy.interpolate.pchip_interpolate(x, y, t)` for `n` data
points: the monotone piecewise-cubic Hermite interpolant with PCHIP slopes,
evaluated at `t`. -/
def pchip_eval (n : ℕ) (x y : ℕ → ℝ) (t : ℝ) : ℝ :=
  hermite (x (intervalIdx n x t)) (x (intervalIdx n x t + 1))
    (y (intervalIdx n x t)) (y (intervalIdx n x t + 1))
    (pchipSlope n x y (intervalIdx n x t)) (pchipSlope n x y (intervalIdx n x t + 1)) t

/-- Embeds `scipy.integrate.simpson(v, dx=dx)` for the 100 uniformly spaced
samples produced by `np.linspace(..., num=100)`: composite Simpson's rule
over the first 98 intervals plus Cartwright's corrected formula for the last
interval (the even-sample-count branch of scipy's `simpson`, with uniform
spacing `alpha = 5*dx/12`, `beta = 2*dx/3`, `eta = dx/12`). -/
def simpson100 (v : ℕ → ℝ) (dx : ℝ) : ℝ :=
  (Finset.range 49).sum (fun i => dx / 3 * (v (2 * i) + 4 * v (2 * i + 1) + v (2 * i + 2)))
    + dx * (5 / 12 * v 99 + 2 / 3 * v 98 - 1 / 12 * v 97)

/-- Embeds `min_int = max(min(metric1), min(metric2))` for sorted point
lists. -/
def minInt (s1 s2 : List (ℝ × ℝ)) : ℝ :=
  max (listMin (metricVals s1)) (listMin (metricVals s2))

/-- Embeds `max_int = min(max(metric1), max(metric2))`. -/
def maxInt (s1 s2 : List (ℝ × ℝ)) : ℝ :=
  min (listMax (metricVals s1)) (listMax (metricVals s2))

/-- The PCHIP fit of one curve in log-rate space, evaluated at metric `t`. -/
def curveLogRate (s : List (ℝ × ℝ)) (t : ℝ) : ℝ :=
  pchip_eval s.length (fun i => nth (metricVals s) i) (fun i => nth (logRates s) i) t

/-- Simpson integral of one curve's interpolated log-rate over `[lo, hi]`,
sampled on the 100-point `np.linspace(lo, hi, num=100)` grid with spacing
`(hi - lo) / 99`. -/
def intCurve (s : List (ℝ × ℝ)) (lo hi : ℝ) : ℝ :=
  simpson100 (fun j => curveLogRate s (lo + j * ((hi - lo) / 99))) ((hi - lo) / 99)

/-- The body of `bd_rate_simpson` after the two input lists have been sorted
by metric value (src/scripts/plot.py:194-229).  The `try`-block's caught
exceptions are modelled as guards, each returning `0`: `math.log` raises
`ValueError` on a non-positive rate, and scipy's `PchipInterpolator` raises
`ValueError` unless its abscissae are strictly increasing (duplicate metric
values).  The non-overlap early return `max_int <= min_int` is the source's
own check. -/
def bdTry (s1 s2 : List (ℝ × ℝ)) : ℝ :=
  if (∃ p ∈ s1, p.1 ≤ 0) ∨ (∃ p ∈ s2, p.1 ≤ 0) then 0
  else if maxInt s1 s2 ≤ minInt s1 s2 then 0
  else if ¬ (metricVals s1).Chain' (· < ·) ∨ ¬ (metricVals s2).Chain' (· < ·) then 0
  else
    (Real.exp ((intCurve s2 (minInt s1 s2) (maxInt s1 s2)
        - intCurve s1 (minInt s1 s2) (maxInt s1 s2)) / (maxInt s1 s2 - minInt s1 s2)) - 1)
      * 100

/-- Embeds `bd_rate_simpson(metric_set1, metric_set2)`
(src/scripts/plot.py:181-229): returns `0` when either list is empty,
otherwise sorts both lists by metric value and runs the PCHIP/Simpson
BD-rate computation. -/
def bd_rate_simpson (metric_set1 metric_set2 : List (ℝ × ℝ)) : ℝ :=
  if metric_set1 = [] ∨ metric_set2 = [] then 0
  else bdTry (sortByMetric metric_set1) (sortByMetric metric_set2)

/-- State-passing embedding of `bd_rate_simpson` recording its effect on the
caller's lists: Python's in-place `list.sort` mutates both arguments (unless
the function returns early on an empty input).  The first component is the
returned value, the other two are the argument lists as the caller observes
them after the call. -/
def bd_rate_simpson_state (metric_set1 metric_set2 : List (ℝ × ℝ)) :
    ℝ × List (ℝ × ℝ) × List (ℝ × ℝ) :=
  if metric_set1 = [] ∨ metric_set2 = [] then (0, metric_set1, metric_set2)
  else (bdTry (sortByMetric metric_set1) (sortByMetric metric_set2),
    sortByMetric metric_set1, sortByMetric metric_set2)

lemma insertByMetric_perm (p : ℝ × ℝ) :
    ∀ l : List (ℝ × ℝ), (insertByMetric p l).Perm (p :: l)
  | [] => List.Perm.refl _
  | q :: qs => by
    rw [insertByMetric]
    by_cases h : p.2 ≤ q.2
    · rw [if_pos h]
    · rw [if_neg h]
      exact ((insertByMetric_perm p qs).cons q).trans (List.Perm.swap p q qs)

lemma sortByMetric_perm : ∀ l : List (ℝ × ℝ), (sortByMetric l).Perm l
  | [] => List.Perm.refl _
  | p :: ps =>
    (insertByMetric_perm p (sortByMetric ps)).trans ((sortByMetric_perm ps).cons p)

lemma insertByMetric_head (p : ℝ × ℝ) : ∀ l : List (ℝ × ℝ),
    (insertByMetric p l).head? = some p ∨ (insertByMetric p l).head? = l.head?
  | [] => Or.inl rfl
  | q :: qs => by
    rw [insertByMetric]
    by_cases hpq : p.2 ≤ q.2
    · rw [if_pos hpq]; exact Or.inl rfl
    · rw [if_neg hpq]; exact Or.inr rfl

lemma insertByMetric_chain (p : ℝ × ℝ) :
    ∀ {l : List (ℝ × ℝ)}, l.Chain' (fun a b => a.2 ≤ b.2) →
      (insertByMetric p l).Chain' (fun a b => a.2 ≤ b.2)
  | [], _ => List.chain'_singleton p
  | q :: qs, h => by
    rw [insertByMetric]
    by_cases hpq : p.2 ≤ q.2
    · rw [if_pos hpq]
      exact List.chain'_cons.mpr ⟨hpq, h⟩
    · rw [if_neg hpq]
      have hqp : q.2 ≤ p.2 := le_of_not_le hpq
      have hh := List.chain'_cons'.mp h
      have htail := insertByMetric_chain p hh.2
      apply List.chain'_cons'.mpr
      refine ⟨?_, htail⟩
      intro y hy
      rcases insertByMetric_head p qs with hd | hd
      · rw [hd] at hy
        cases hy
        exact hqp
      · rw [hd] at hy
        exact hh.1 y hy

lemma sortByMetric_chain : ∀ l : List (ℝ × ℝ),
    (sortByMetric l).Chain' (fun a b => a.2 ≤ b.2)
  | [] => List.chain'_nil
  | p :: ps => insertByMetric_chain p (sortByMetric_chain ps)

lemma sortByMetric_eq_of_sorted : ∀ {l : List (ℝ × ℝ)},
    l.Chain' (fun a b => a.2 ≤ b.2) → sortByMetric l = l
  | [], _ => rfl
  | p :: ps, h => by
    have hh := List.chain'_cons'.mp h
    rw [sortByMetric, sortByMetric_eq_of_sorted hh.2]
    cases ps with
    | nil => rfl
    | cons q qs => rw [insertByMetric, if_pos (hh.1 q rfl)]

lemma foldl_min_le_init : ∀ (xs : List ℝ) (x : ℝ), xs.foldl min x ≤ x
  | [], x => le_refl x
  | y :: ys, x => by
    rw [List.foldl_cons]
    exact le_trans (foldl_min_le_init ys (min x y)) (min_le_left x y)

lemma foldl_min_le_mem : ∀ (xs : List ℝ) (x y : ℝ), y ∈ xs → xs.foldl min x ≤ y
  | y' :: ys, x, y, hy => by
    rw [List.foldl_cons]
    rcases List.mem_cons.mp hy with rfl | h
    · exact le_trans (foldl_min_le_init ys (min x y)) (min_le_right x y)
    · exact foldl_min_le_mem ys (min x y') y h

lemma foldl_min_mem : ∀ (xs : List ℝ) (x : ℝ), xs.foldl min x = x ∨ xs.foldl min x ∈ xs
  | [], _ => Or.inl rfl
  | y :: ys, x => by
    rw [List.foldl_cons]
    rcases foldl_min_mem ys (min x y) with h | h
    · rcases min_choice x y with hc | hc
      · exact Or.inl (h.trans hc)
      · rw [h, hc]
        exact Or.inr (List.mem_cons_self y ys)
    · exact Or.inr (List.mem_cons_of_mem y h)

lemma foldl_max_ge_init : ∀ (xs : List ℝ) (x : ℝ), x ≤ xs.foldl max x
  | [], x => le_refl x
  | y :: ys, x => by
    rw [List.foldl_cons]
    exact le_trans (le_max_left x y) (foldl_max_ge_init ys (max x y))

lemma foldl_max_ge_mem : ∀ (xs : List ℝ) (x y : ℝ), y ∈ xs → y ≤ xs.foldl max x
  | y' :: ys, x, y, hy => by
    rw [List.foldl_cons]
    rcases List.mem_cons.mp hy with rfl | h
    · exact le_trans (le_max_right x y) (foldl_max_ge_init ys (max x y))
    · exact foldl_max_ge_mem ys (max x y') y h

lemma foldl_max_mem : ∀ (xs : List ℝ) (x : ℝ), xs.foldl max x = x ∨ xs.foldl max x ∈ xs
  | [], _ => Or.inl rfl
  | y :: ys, x => by
    rw [List.foldl_cons]
    rcases foldl_max_mem ys (max x y) with h | h
    · rcases max_choice x y with hc | hc
      · exact Or.inl (h.trans hc)
      · rw [h, hc]
        exact Or.inr (List.mem_cons_self y ys)
    · exact Or.inr (List.mem_cons_of_mem y h)

lemma listMin_le {l : List ℝ} {y : ℝ} (hy : y ∈ l) : listMin l ≤ y := by
  cases l with
  | nil => exact absurd hy (List.not_mem_nil y)
  | cons x xs =>
    rw [listMin]
    rcases List.mem_cons.mp hy with rfl | h
    · exact foldl_min_le_init xs y
    · exact foldl_min_le_mem xs x y h

lemma listMin_mem {l : List ℝ} (h : l ≠ []) : listMin l ∈ l := by
  cases l with
  | nil => exact absurd rfl h
  | cons x xs =>
    rw [listMin]
    rcases foldl_min_mem xs x with h1 | h1
    · rw [h1]; exact List.mem_cons_self x xs
    · exact List.mem_cons_of_mem x h1

lemma listMax_ge {l : List ℝ} {y : ℝ} (hy : y ∈ l) : y ≤ listMax l := by
  cases l with
  | nil => exact absurd hy (List.not_mem_nil y)
  | cons x xs =>
    rw [listMax]
    rcases List.mem_cons.mp hy with rfl | h
    · exact foldl_max_ge_init xs y
    · exact foldl_max_ge_mem xs x y h

lemma listMax_mem {l : List ℝ} (h : l ≠ []) : listMax l ∈ l := by
  cases l with
  | nil => exact absurd rfl h
  | cons x xs =>
    rw [listMax]
    rcases foldl_max_mem xs x with h1 | h1
    · rw [h1]; exact List.mem_cons_self x xs
    · exact List.mem_cons_of_mem x h1

lemma listMin_perm {l1 l2 : List ℝ} (h : l1.Perm l2) : listMin l1 = listMin l2 := by
  by_cases h1 : l1 = []
  · subst h1
    rw [List.Perm.eq_nil h.symm]
  · have h2 : l2 ≠ [] := by
      intro h2
      exact h1 (List.Perm.eq_nil (h2 ▸ h))
    apply le_antisymm
    · exact listMin_le (h.mem_iff.mpr (listMin_mem h2))
    · exact listMin_le (h.symm.mem_iff.mpr (listMin_mem h1))

lemma listMax_perm {l1 l2 : List ℝ} (h : l1.Perm l2) : listMax l1 = listMax l2 := by
  by_cases h1 : l1 = []
  · subst h1
    rw [List.Perm.eq_nil h.symm]
  · have h2 : l2 ≠ [] := by
      intro h2
      exact h1 (List.Perm.eq_nil (h2 ▸ h))
    apply le_antisymm
    · exact listMax_ge (h.symm.mem_iff.mpr (listMax_mem h1))
    · exact listMax_ge (h.mem_iff.mpr (listMax_mem h2))

lemma metricVals_sort_perm (l : List (ℝ × ℝ)) :
    (metricVals (sortByMetric l)).Perm (metricVals l) := by
  unfold metricVals
  exact (sortByMetric_perm l).map (fun p => p.2)

/-- C8.  `bd_rate_simpson` returns exactly `0` on every degenerate input:
an empty point list on either side, distortion ranges that do not overlap
(`hi <= lo` computed from the two curves' metric values), and a
single-point curve (whose metric minimum equals its maximum, forcing
`hi <= lo`). -/
theorem c8_degenerate_inputs_zero :
    (∀ b : List (ℝ × ℝ), bd_rate_simpson [] b = 0)
    ∧ (∀ a : List (ℝ × ℝ), bd_rate_simpson a [] = 0)
    ∧ (∀ a b : List (ℝ × ℝ), a ≠ [] → b ≠ [] →
        min (listMax (metricVals a)) (listMax (metricVals b))
          ≤ max (listMin (metricVals a)) (listMin (metricVals b)) →
        bd_rate_simpson a b = 0)
    ∧ (∀ (p : ℝ × ℝ) (b : List (ℝ × ℝ)), b ≠ [] → bd_rate_simpson [p] b = 0)
    ∧ (∀ (a : List (ℝ × ℝ)) (p : ℝ × ℝ), a ≠ [] → bd_rate_simpson a [p] = 0) := by
  refine ⟨fun b => by rw [bd_rate_simpson, if_pos (Or.inl rfl)],
    fun a => by rw [bd_rate_simpson, if_pos (Or.inr rfl)], ?_, ?_, ?_⟩
  · intro a b ha hb hover
    rw [bd_rate_simpson, if_neg (by push_neg; exact ⟨ha, hb⟩), bdTry]
    by_cases hr : (∃ p ∈ sortByMetric a, p.1 ≤ 0) ∨ (∃ p ∈ sortByMetric b, p.1 ≤ 0)
    · rw [if_pos hr]
    · have hcond : maxInt (sortByMetric a) (sortByMetric b)
          ≤ minInt (sortByMetric a) (sortByMetric b) := by
        unfold maxInt minInt
        rw [listMax_perm (metricVals_sort_perm a), listMax_perm (metricVals_sort_perm b),
          listMin_perm (metricVals_sort_perm a), listMin_perm (metricVals_sort_perm b)]
        exact hover
      rw [if_neg hr, if_pos hcond]
  · intro p b hb
    rw [bd_rate_simpson, if_neg (by push_neg; exact ⟨List.cons_ne_nil p [], hb⟩), bdTry]
    by_cases hr : (∃ q ∈ sortByMetric [p], q.1 ≤ 0) ∨ (∃ q ∈ sortByMetric b, q.1 ≤ 0)
    · rw [if_pos hr]
    · have hcond : maxInt (sortByMetric [p]) (sortByMetric b)
          ≤ minInt (sortByMetric [p]) (sortByMetric b) := by
        have hsp : sortByMetric [p] = [p] := rfl
        rw [hsp]
        unfold maxInt minInt
        have h1 : metricVals [p] = [p.2] := rfl
        rw [h1, show listMax [p.2] = p.2 from rfl, show listMin [p.2] = p.2 from rfl]
        exact le_trans (min_le_left _ _) (le_max_left _ _)
      rw [if_neg hr, if_pos hcond]
  · intro a p ha
    rw [bd_rate_simpson, if_neg (by push_neg; exact ⟨ha, List.cons_ne_nil p []⟩), bdTry]
    by_cases hr : (∃ q ∈ sortByMetric a, q.1 ≤ 0) ∨ (∃ q ∈ sortByMetric [p], q.1 ≤ 0)
    · rw [if_pos hr]
    · have hcond : maxInt (sortByMetric a) (sortByMetric [p])
          ≤ minInt (sortByMetric a) (sortByMetric [p]) := by
        have hsp : sortByMetric [p] = [p] := rfl
        rw [hsp]
        unfold maxInt minInt
        have h1 : metricVals [p] = [p.2] := rfl
        rw [h1, show listMax [p.2] = p.2 from rfl, show listMin [p.2] = p.2 from rfl]
        exact le_trans (min_le_right _ _) (le_max_right _ _)
      rw [if_neg hr, if_pos hcond]

/-- Witness for C8 at concrete inputs: empty lists, two curves with disjoint
distortion ranges `[10,20]` and `[30,40]`, and single-point curves. -/
theorem c8_degenerate_inputs_zero_witness :
    bd_rate_simpson [] [((1 : ℝ), (1 : ℝ))] = 0
    ∧ bd_rate_simpson [((1 : ℝ), (1 : ℝ))] [] = 0
    ∧ bd_rate_simpson [((1 : ℝ), (10 : ℝ)), (2, 20)] [((3 : ℝ), (30 : ℝ)), (4, 40)] = 0
    ∧ bd_rate_simpson [((1 : ℝ), (10 : ℝ))] [((2 : ℝ), (10 : ℝ)), (3, 20)] = 0
    ∧ bd_rate_simpson [((2 : ℝ), (10 : ℝ)), (3, 20)] [((1 : ℝ), (10 : ℝ))] = 0 :=
  ⟨c8_degenerate_inputs_zero.1 _, c8_degenerate_inputs_zero.2.1 _,
    c8_degenerate_inputs_zero.2.2.1 _ _ (by simp) (by simp)
      (by norm_num [metricVals, listMax, listMin, max_def, min_def]),
    c8_degenerate_inputs_zero.2.2.2.1 _ _ (by simp),
    c8_degenerate_inputs_zero.2.2.2.2 _ _ (by simp)⟩

/-- C9 counterexample.  `bd_rate_simpson` is not free of side effects on its
inputs: it sorts both argument lists in place, so a first argument supplied
in descending metric order is reordered by the call. -/
theorem c9_counterexample :
    (bd_rate_simpson_state [((2000 : ℝ), (20 : ℝ)), (1000, 10)] [((1 : ℝ), (1 : ℝ))]).2.1
      ≠ [((2000 : ℝ), (20 : ℝ)), (1000, 10)] := by
  rw [bd_rate_simpson_state, if_neg (by push_neg; exact ⟨by simp, by simp⟩)]
  have hs : sortByMetric [((2000 : ℝ), (20 : ℝ)), (1000, 10)]
      = [((1000 : ℝ), (10 : ℝ)), (2000, 20)] := by
    norm_num [sortByMetric, insertByMetric]
  simp only [hs]
  intro h
  have := List.head_eq_of_cons_eq h
  rw [Prod.mk.injEq] at this
  norm_num at this

/-- C9 (amended).  `bd_rate_simpson`'s only side effect is sorting both input
lists in place by metric value: the returned number is the pure function of
the inputs, each post-call list is a permutation of the corresponding input,
and (when neither input is empty, i.e. no early return) each post-call list
is ascending in the metric component. -/
theorem c9_sorts_in_place :
    ∀ a b : List (ℝ × ℝ),
      (bd_rate_simpson_state a b).1 = bd_rate_simpson a b
      ∧ ((bd_rate_simpson_state a b).2.1).Perm a
      ∧ ((bd_rate_simpson_state a b).2.2).Perm b
      ∧ (a ≠ [] → b ≠ [] →
          ((bd_rate_simpson_state a b).2.1.Chain' (fun p q => p.2 ≤ q.2)
            ∧ (bd_rate_simpson_state a b).2.2.Chain' (fun p q => p.2 ≤ q.2))) := by
  intro a b
  by_cases h : a = [] ∨ b = []
  · rw [bd_rate_simpson_state, if_pos h, bd_rate_simpson, if_pos h]
    refine ⟨rfl, List.Perm.refl _, List.Perm.refl _, fun ha hb => ?_⟩
    rcases h with h | h
    · exact absurd h ha
    · exact absurd h hb
  · rw [bd_rate_simpson_state, if_neg h, bd_rate_simpson, if_neg h]
    exact ⟨rfl, sortByMetric_perm a, sortByMetric_perm b,
      fun _ _ => ⟨sortByMetric_chain a, sortByMetric_chain b⟩⟩

lemma hermite_shift (x0 x1 y0 y1 d0 d1 t c : ℝ) :
    hermite x0 x1 (y0 + c) (y1 + c) d0 d1 t = hermite x0 x1 y0 y1 d0 d1 t + c := by
  unfold hermite
  ring

lemma mk_shift {y1 y2 : ℕ → ℝ} {c : ℝ} {n : ℕ} (x : ℕ → ℝ)
    (hy : ∀ i < n, y2 i = y1 i + c) {i : ℕ} (hi : i + 1 < n) :
    mk x y2 i = mk x y1 i := by
  unfold mk
  rw [hy (i + 1) hi, hy i (Nat.lt_of_succ_lt hi)]
  ring

/-- PCHIP slopes only depend on the data through its secant slopes, so they
are invariant under adding a constant to every data value. -/
lemma pchipSlope_shift {n : ℕ} (x : ℕ → ℝ) {y1 y2 : ℕ → ℝ} {c : ℝ} (hn : 2 ≤ n)
    (hy : ∀ i < n, y2 i = y1 i + c) {j : ℕ} (hj : j < n) :
    pchipSlope n x y2 j = pchipSlope n x y1 j := by
  have hmk : ∀ i, i + 1 < n → mk x y2 i = mk x y1 i := fun i hi => mk_shift x hy hi
  unfold pchipSlope
  by_cases h2 : n = 2
  · rw [if_pos h2, if_pos h2, hmk 0 (by omega)]
  · rw [if_neg h2, if_neg h2]
    by_cases hj0 : j = 0
    · rw [if_pos hj0, if_pos hj0, hmk 0 (by omega), hmk 1 (by omega)]
    · rw [if_neg hj0, if_neg hj0]
      by_cases hjn : j = n - 1
      · rw [if_pos hjn, if_pos hjn, hmk (n - 2) (by omega), hmk (n - 3) (by omega)]
      · rw [if_neg hjn, if_neg hjn, hmk j (by omega), hmk (j - 1) (by omega)]

lemma intervalIdx_le (n : ℕ) (x : ℕ → ℝ) (t : ℝ) : intervalIdx n x t ≤ n - 2 := by
  unfold intervalIdx
  exact min_le_right _ _

/-- The PCHIP interpolant of data shifted by a constant is the original
interpolant shifted by that constant. -/
lemma pchip_eval_shift {n : ℕ} (x : ℕ → ℝ) {y1 y2 : ℕ → ℝ} {c : ℝ} (hn : 2 ≤ n)
    (hy : ∀ i < n, y2 i = y1 i + c) (t : ℝ) :
    pchip_eval n x y2 t = pchip_eval n x y1 t + c := by
  have hidx : intervalIdx n x t ≤ n - 2 := intervalIdx_le n x t
  have h0 : intervalIdx n x t < n := by omega
  have h1 : intervalIdx n x t + 1 < n := by omega
  unfold pchip_eval
  rw [pchipSlope_shift x hn hy h0, pchipSlope_shift x hn hy h1, hy _ h0, hy _ h1,
    hermite_shift]

/-- Simpson integration of samples shifted by a constant adds exactly
`c` times the grid width `99 * dx`. -/
lemma simpson100_shift {v1 v2 : ℕ → ℝ} {c : ℝ} (dx : ℝ) (hv : ∀ j, v2 j = v1 j + c) :
    simpson100 v2 dx = simpson100 v1 dx + 99 * dx * c := by
  unfold simpson100
  have hterm : ∀ i ∈ Finset.range 49,
      dx / 3 * (v2 (2 * i) + 4 * v2 (2 * i + 1) + v2 (2 * i + 2))
        = dx / 3 * (v1 (2 * i) + 4 * v1 (2 * i + 1) + v1 (2 * i + 2)) + 2 * dx * c := by
    intro i _
    rw [hv (2 * i), hv (2 * i + 1), hv (2 * i + 2)]
    ring
  rw [Finset.sum_congr rfl hterm, Finset.sum_add_distrib, Finset.sum_const,
    Finset.card_range, hv 99, hv 98, hv 97, nsmul_eq_mul]
  push_cast
  ring

lemma nth_map_pair (g : ℝ × ℝ → ℝ) (l : List (ℝ × ℝ)) :
    ∀ i : ℕ, i < l.length → nth (l.map g) i = g (l.getD i (0, 0)) := by
  induction l with
  | nil => intro i hi; simp at hi
  | cons p ps ih =>
    intro i hi
    cases i with
    | zero => rfl
    | succ i =>
      have hlen : i < ps.length := by
        simp only [List.length_cons] at hi
        omega
      show nth (List.map g ps) i = g (ps.getD i (0, 0))
      exact ih i hlen

lemma getD_mem_pair (l : List (ℝ × ℝ)) :
    ∀ i : ℕ, i < l.length → l.getD i (0, 0) ∈ l := by
  induction l with
  | nil => intro i hi; simp at hi
  | cons p ps ih =>
    intro i hi
    cases i with
    | zero => exact List.mem_cons_self p ps
    | succ i =>
      have hlen : i < ps.length := by
        simp only [List.length_cons] at hi
        omega
      exact List.mem_cons_of_mem p (ih i hlen)

/-- Core of the C1 computation: on a sorted curve with at least two points,
strictly increasing metrics and positive rates, scaling every rate by
`k > 0` shifts the interpolated log-rate curve by `log k`, so the BD-rate
body evaluates to exactly `(k - 1) * 100`. -/
lemma bdTry_scale (a : List (ℝ × ℝ)) (k : ℝ) (hlen : 2 ≤ a.length)
    (hchain : a.Chain' (fun p q => p.2 < q.2)) (hrate : ∀ p ∈ a, 0 < p.1) (hk : 0 < k) :
    bdTry a (a.map (fun p => (k * p.1, p.2))) = (k - 1) * 100 := by
  have hmv : metricVals (a.map (fun p => (k * p.1, p.2))) = metricVals a := by
    unfold metricVals
    rw [List.map_map]
    rfl
  have hlb : (a.map (fun p => (k * p.1, p.2))).length = a.length := List.length_map _ _
  have hmchain : (metricVals a).Chain' (· < ·) := (List.chain'_map _).mpr hchain
  have hmlen : 2 ≤ (metricVals a).length := by
    unfold metricVals
    rw [List.length_map]
    exact hlen
  have hmv2 : ∃ m0 m1 ms, metricVals a = m0 :: m1 :: ms := by
    cases hma : metricVals a with
    | nil => rw [hma] at hmlen; simp at hmlen
    | cons m0 t =>
      cases t with
      | nil => rw [hma] at hmlen; simp at hmlen
      | cons m1 ms => exact ⟨m0, m1, ms, rfl⟩
  obtain ⟨m0, m1, ms, hma⟩ := hmv2
  have hlt : m0 < m1 := by
    have hc := hma ▸ hmchain
    exact (List.chain'_cons.mp hc).1
  have hlomax : listMin (metricVals a) < listMax (metricVals a) := by
    have h1 : listMin (metricVals a) ≤ m0 :=
      listMin_le (by rw [hma]; exact List.mem_cons_self _ _)
    have h2 : m1 ≤ listMax (metricVals a) :=
      listMax_ge (by rw [hma]; exact List.mem_cons_of_mem _ (List.mem_cons_self _ _))
    linarith
  have hminInt : minInt a (a.map (fun p => (k * p.1, p.2))) = listMin (metricVals a) := by
    unfold minInt
    rw [hmv, max_self]
  have hmaxInt : maxInt a (a.map (fun p => (k * p.1, p.2))) = listMax (metricVals a) := by
    unfold maxInt
    rw [hmv, min_self]
  have hg1 : ¬ ((∃ p ∈ a, p.1 ≤ 0)
      ∨ (∃ p ∈ a.map (fun p => (k * p.1, p.2)), p.1 ≤ 0)) := by
    push_neg
    constructor
    · exact hrate
    · intro p hp
      obtain ⟨q, hq, rfl⟩ := List.mem_map.mp hp
      exact mul_pos hk (hrate q hq)
  have hg2 : ¬ (maxInt a (a.map (fun p => (k * p.1, p.2)))
      ≤ minInt a (a.map (fun p => (k * p.1, p.2)))) := by
    rw [hmaxInt, hminInt]
    exact not_le.mpr hlomax
  have hg3 : ¬ (¬ (metricVals a).Chain' (· < ·)
      ∨ ¬ (metricVals (a.map (fun p => (k * p.1, p.2)))).Chain' (· < ·)) := by
    rw [hmv]
    exact not_or.mpr ⟨not_not_intro hmchain, not_not_intro hmchain⟩
  rw [bdTry, if_neg hg1, if_neg hg2, if_neg hg3, hminInt, hmaxInt]
  have hcv : ∀ t, curveLogRate (a.map (fun p => (k * p.1, p.2))) t
      = curveLogRate a t + Real.log k := by
    intro t
    unfold curveLogRate
    rw [hlb, hmv]
    apply pchip_eval_shift (fun i => nth (metricVals a) i) hlen
    intro i hi
    have h1 : logRates (a.map (fun p => (k * p.1, p.2)))
        = a.map (fun p => Real.log (k * p.1)) := by
      unfold logRates
      rw [List.map_map]
      rfl
    rw [h1, nth_map_pair _ a i hi,
      show logRates a = a.map (fun p => Real.log p.1) from rfl, nth_map_pair _ a i hi,
      Real.log_mul (ne_of_gt hk) (ne_of_gt (hrate _ (getD_mem_pair a i hi)))]
    ring
  have hint : intCurve (a.map (fun p => (k * p.1, p.2)))
        (listMin (metricVals a)) (listMax (metricVals a))
      = intCurve a (listMin (metricVals a)) (listMax (metricVals a))
        + 99 * ((listMax (metricVals a) - listMin (metricVals a)) / 99) * Real.log k := by
    unfold intCurve
    exact simpson100_shift _ (fun j => hcv _)
  rw [hint]
  have hne : listMax (metricVals a) - listMin (metricVals a) ≠ 0 := by
    have : (0 : ℝ) < listMax (metricVals a) - listMin (metricVals a) := by linarith
    exact ne_of_gt this
  have harg : (intCurve a (listMin (metricVals a)) (listMax (metricVals a))
        + 99 * ((listMax (metricVals a) - listMin (metricVals a)) / 99) * Real.log k
        - intCurve a (listMin (metricVals a)) (listMax (metricVals a)))
      / (listMax (metricVals a) - listMin (metricVals a)) = Real.log k := by
    field_simp
  rw [harg, Real.exp_log hk]

/-- `bd_rate_simpson` on a curve and its rate-scaled copy: the sort leaves
both (already ascending) lists unchanged and the body evaluates to
`(k - 1) * 100`. -/
lemma bd_rate_scale (a : List (ℝ × ℝ)) (k : ℝ) (hlen : 2 ≤ a.length)
    (hchain : a.Chain' (fun p q => p.2 < q.2)) (hrate : ∀ p ∈ a, 0 < p.1) (hk : 0 < k) :
    bd_rate_simpson a (a.map (fun p => (k * p.1, p.2))) = (k - 1) * 100 := by
  have ha : a ≠ [] := by
    intro h
    rw [h] at hlen
    simp at hlen
  have hb : a.map (fun p => (k * p.1, p.2)) ≠ [] := by
    simp only [ne_eq, List.map_eq_nil_iff]
    exact ha
  have hchain_le : a.Chain' (fun p q => p.2 ≤ q.2) :=
    hchain.imp (fun _ _ h => le_of_lt h)
  have hbchain_le : (a.map (fun p => (k * p.1, p.2))).Chain' (fun p q => p.2 ≤ q.2) :=
    (List.chain'_map _).mpr hchain_le
  rw [bd_rate_simpson, if_neg (by push_neg; exact ⟨ha, hb⟩),
    sortByMetric_eq_of_sorted hchain_le, sortByMetric_eq_of_sorted hbchain_le]
  exact bdTry_scale a k hlen hchain hrate hk

/-- Witness for C9 at a concrete descending-order input: the post-call first
list is a permutation of the input and is sorted ascending by metric. -/
theorem c9_sorts_in_place_witness :
    ((bd_rate_simpson_state [((2000 : ℝ), (20 : ℝ)), (1000, 10)] [((1 : ℝ), (1 : ℝ))]).2.1).Perm
        [((2000 : ℝ), (20 : ℝ)), (1000, 10)]
    ∧ (bd_rate_simpson_state [((2000 : ℝ), (20 : ℝ)), (1000, 10)]
        [((1 : ℝ), (1 : ℝ))]).2.1.Chain' (fun p q => p.2 ≤ q.2) :=
  ⟨(c9_sorts_in_place _ _).2.1,
    ((c9_sorts_in_place _ _).2.2.2 (by simp) (by simp)).1⟩

/-- C1 counterexample.  On the spec's own example — curve A
`[(1000,10),(2000,20),(3000,30)]` and curve B with rates doubled at the same
distortions — `bd_rate_simpson(A, B)` is exactly `100` (in real arithmetic),
not within a few percent of `(1/2 - 1)*100 = -50`. -/
theorem c1_counterexample :
    bd_rate_simpson [((1000 : ℝ), (10 : ℝ)), (2000, 20), (3000, 30)]
        [((2000 : ℝ), (10 : ℝ)), (4000, 20), (6000, 30)] = 100
    ∧ ¬ |bd_rate_simpson [((1000 : ℝ), (10 : ℝ)), (2000, 20), (3000, 30)]
        [((2000 : ℝ), (10 : ℝ)), (4000, 20), (6000, 30)] - (1 / 2 - 1) * 100| ≤ 10 := by
  have hmap : List.map (fun p => ((2 : ℝ) * p.1, p.2))
        [((1000 : ℝ), (10 : ℝ)), (2000, 20), (3000, 30)]
      = [((2000 : ℝ), (10 : ℝ)), (4000, 20), (6000, 30)] := by
    norm_num
  have h := bd_rate_scale [((1000 : ℝ), (10 : ℝ)), (2000, 20), (3000, 30)] 2
    (by simp)
    (by simp only [List.chain'_cons, List.chain'_singleton, and_true]; norm_num)
    (by intro p hp; simp only [List.mem_cons, List.not_mem_nil, or_false] at hp
        rcases hp with rfl | rfl | rfl <;> norm_num)
    (by norm_num)
  rw [hmap] at h
  rw [h]
  norm_num [abs_sub_le_iff]

/-- C1 (amended).  If curve B's rates are curve A's rates scaled by a
constant factor `k > 0` at every matching distortion point (A given sorted
with strictly increasing distortions, positive rates and at least two
points), then `bd_rate_simpson(A, B) = (k - 1) * 100` exactly in real
arithmetic — `+100` for `k = 2`, a positive value meaning curve A is better,
not `(1/k - 1) * 100`. -/
theorem c1_scaled_rates_bd_rate :
    ∀ (a : List (ℝ × ℝ)) (k : ℝ), 2 ≤ a.length →
      a.Chain' (fun p q => p.2 < q.2) → (∀ p ∈ a, 0 < p.1) → 0 < k →
      bd_rate_simpson a (a.map (fun p => (k * p.1, p.2))) = (k - 1) * 100 :=
  fun a k h1 h2 h3 h4 => bd_rate_scale a k h1 h2 h3 h4

/-- Witness for C1 at the spec's example curve with `k = 2`. -/
theorem c1_scaled_rates_bd_rate_witness :
    bd_rate_simpson [((1000 : ℝ), (10 : ℝ)), (2000, 20), (3000, 30)]
      (List.map (fun p => ((2 : ℝ) * p.1, p.2))
        [((1000 : ℝ), (10 : ℝ)), (2000, 20), (3000, 30)]) = 100 := by
  have h := c1_scaled_rates_bd_rate [((1000 : ℝ), (10 : ℝ)), (2000, 20), (3000, 30)] 2
    (by simp)
    (by simp only [List.chain'_cons, List.chain'_singleton, and_true]; norm_num)
    (by intro p hp; simp only [List.mem_cons, List.not_mem_nil, or_false] at hp
        rcases hp with rfl | rfl | rfl <;> norm_num)
    (by norm_num)
  rw [h]
  norm_num

end
